import Mathlib

/-!
Shallow embedding of the `auto_derive` computation-graph library
(`src/array.rs`, `src/computation.rs`, `src/binary_functions.rs`,
`src/unary_functions.rs`, `src/index_functions.rs`).

Modelling decisions, stated once:

* `f64` buffers are modelled as lists of integers (`ℤ`).  Every claim under
  study is about the algebraic structure of the computations (which values
  are added, multiplied, broadcast, scattered), not about rounding; on
  integer inputs of moderate size every modelled operation (addition,
  multiplication, negation, absolute value, min/max, comparisons) is exact in
  `f64` as well, so `ℤ` preserves the content while staying executable and
  kernel-decidable.
* A `DArray` is identified by the index at which its internal node was
  appended to a growing node store.  The Rust library draws a random `usize`
  id and compares/hashes nodes only by id; construction order is a faithful
  identity model because ids are never reused and never compared for order
  during evaluation or differentiation.
* The memoization cell `RwLock<UnsafeCell<Option<Vec<f64>>>>` becomes a
  per-node `Option Buf` in a state record.  All executions modelled here are
  single-threaded, where the lock protocol reduces to: read the cell; if
  `none`, compute `apply_on_zero` on a fresh zero buffer and store the result.
* Transcendental operations (`exp`, `ln`, `sin`, `cos`) and the integer
  power are omitted from the derivable-operation algebra since they have no
  exact integer counterpart; no claim under study mentions them.  The
  remaining operations are translated literally.
* Panicking `assert!`s inside `apply` bodies (buffer-length checks) are not
  modelled; no claim exercises them and they never fire on well-formed
  graphs.  The `derive()` length assertion, which claim C9 is about, *is*
  modelled (as an `Except` error carrying the reported length).
-/

/-- A numeric buffer (`Vec<f64>` in the source). -/
abbrev Buf := List ℤ

/-- The closed algebra of derivable pointwise operations: the `DerivableOp`
implementors of `unary_functions.rs` that have exact rational semantics. -/
inductive DOp where
  | zero
  | const (c : ℤ)
  | ident
  | signum
  | absf
  | negf
  | gt (val : ℤ)
  | lt (val : ℤ)
  | maxf (val : ℤ)
  | minf (val : ℤ)
deriving DecidableEq

/-- Pointwise application: the `apply` methods of the `DerivableOp` impls.
`signum` follows `f64::signum` on nonzero inputs (zero is mapped to `1`,
matching `(+0.0).signum()`). -/
def DOp.apply : DOp → ℤ → ℤ
  | .zero, _ => 0
  | .const c, _ => c
  | .ident, x => x
  | .signum, x => if x < 0 then -1 else 1
  | .absf, x => |x|
  | .negf, x => -x
  | .gt v, x => if v < x then 1 else 0
  | .lt v, x => if x < v then 1 else 0
  | .maxf v, x => max x v
  | .minf v, x => min x v

/-- Symbolic derivative: the `derivative` methods of the `DerivableOp` impls.
`MinFunc::derivative` returns `GtFunc { val }` in the source
(`unary_functions.rs` line 373); that choice is mirrored verbatim here. -/
def DOp.derivative : DOp → DOp
  | .zero => .zero
  | .const _ => .zero
  | .ident => .const 1
  | .signum => .zero
  | .absf => .signum
  | .negf => .const (-1)
  | .gt _ => .zero
  | .lt _ => .zero
  | .maxf v => .gt v
  | .minf v => .gt v

/-- The computation variants (`Computation` implementors).  Operand `DArray`s
are referenced by node index. -/
inductive Comp where
  | fromData (data : Buf)
  | addC (p1 p2 : Nat)
  | addScalar (nonScalar scalar : Nat)
  | mulC (p1 p2 : Nat)
  | mulScalar (nonScalar scalar : Nat)
  | unary (src : Nat) (op : DOp)
  | indexC (src : Nat) (indices : List (Nat × Nat)) (length : Nat)
  | sumC (src : Nat)
  | expand (src : Nat) (length : Nat)
deriving DecidableEq

/-- `ComputationType` from `computation.rs`. -/
inductive CType where
  | Add
  | Binary
  | Unary
  | Other
deriving DecidableEq

/-- `sources()` of each computation, in source order. -/
def Comp.sources : Comp → List Nat
  | .fromData _ => []
  | .addC p1 p2 => [p1, p2]
  | .addScalar ns sc => [ns, sc]
  | .mulC p1 p2 => [p1, p2]
  | .mulScalar ns sc => [ns, sc]
  | .unary s _ => [s]
  | .indexC s _ _ => [s]
  | .sumC s => [s]
  | .expand s _ => [s]

/-- `get_type()`.  Only the four binary arithmetic computations override the
default; in particular `UnaryComp` does *not* override it
(`unary_functions.rs` lines 251-269), so unary maps report `Other`. -/
def Comp.getType : Comp → CType
  | .addC _ _ => .Add
  | .addScalar _ _ => .Add
  | .mulC _ _ => .Binary
  | .mulScalar _ _ => .Binary
  | _ => .Other

/-- One `DArrayInternal`: the computation recipe plus the length fixed at
construction.  The memoization cell lives in `St.memo`. -/
structure GNode where
  comp : Comp
  length : Nat
deriving DecidableEq

/-- The whole-world state: the append-only node store (node id = index) and
each node's memoization cell. -/
structure St where
  nodes : List GNode
  memo : List (Option Buf)
deriving DecidableEq

/-- The empty world. -/
def St.empty : St := ⟨[], []⟩

/-- Node lookup (total, with a dummy default that no well-formed execution
ever touches). -/
def St.node (st : St) (i : Nat) : GNode := st.nodes.getD i ⟨.fromData [], 0⟩

/-- `DArray::len()`. -/
def St.nlen (st : St) (i : Nat) : Nat := (st.node i).length

/-- Reads the memoization cell. -/
def St.getMemo (st : St) (i : Nat) : Option Buf := st.memo.getD i none

/-- `DArray::is_initialized()`. -/
def St.isInit (st : St) (i : Nat) : Bool := (st.getMemo i).isSome

/-- The buffer of an initialized node (empty default for uninitialized). -/
def St.dataOf (st : St) (i : Nat) : Buf := (st.getMemo i).getD []

/-- Writes the memoization cell (the unique `Unset → Computed` transition). -/
def St.setMemo (st : St) (i : Nat) (b : Buf) : St := ⟨st.nodes, st.memo.set i (some b)⟩

/-- `Computation::len()` of each variant. -/
def compLen (st : St) : Comp → Nat
  | .fromData d => d.length
  | .addC p1 _ => st.nlen p1
  | .addScalar ns _ => st.nlen ns
  | .mulC p1 _ => st.nlen p1
  | .mulScalar ns _ => st.nlen ns
  | .unary s _ => st.nlen s
  | .indexC _ _ L => L
  | .sumC _ => 1
  | .expand _ L => L

/-- Appends a fresh node with an `Unset` memo cell; returns the new state and
the new node's id.  This is `DArray::new` on a `DArrayInternal` with
`data: None`. -/
def St.push (st : St) (c : Comp) (len : Nat) : St × Nat :=
  (⟨st.nodes ++ [⟨c, len⟩], st.memo ++ [none]⟩, st.nodes.length)

/-- `DArray::from_comp`: the stored length is `comp.len()`. -/
def St.pushComp (st : St) (c : Comp) : St × Nat :=
  st.push c (compLen st c)

/-- Pointwise `res[i] += d[i]` over the common range, leaving any excess of
`res` unchanged (the `izip!` looping convention of the source). -/
def addInto (res d : Buf) : Buf :=
  List.zipWith (fun a b => a + b) res d ++ res.drop d.length

/-- Pointwise `res[i] *= d[i]` over the common range, leaving any excess of
`res` unchanged. -/
def mulInto (res d : Buf) : Buf :=
  List.zipWith (fun a b => a * b) res d ++ res.drop d.length

/-- `IndexComp::apply`'s scatter loop: `res[tar] += data[src]` for each pair. -/
def scatterAdd (res : Buf) (idxs : List (Nat × Nat)) (d : Buf) : Buf :=
  idxs.foldl (fun r p => r.set p.2 (r.getD p.2 0 + d.getD p.1 0)) res

/-! ### The breadth-first parent count and Kahn ordering

`DArray::data` (lines 127-170) and `DArray::topological_sort` (lines 241-271)
run the same two worklist loops; `data` additionally skips initialized
children.  The shared shape is captured once, parameterized by the `filt`
flag.  Parent counts live in a `List (Option Nat)` indexed by node id (`none`
models absence from the Rust hash map); the queue is a growing list with a
read cursor, exactly as in the source.  Loops take explicit fuel; one fuel
unit is consumed per processed queue slot, so `st.nodes.length + 1` units
suffice for every graph (each node enters a queue at most once). -/

/-- The counting BFS: builds the visit queue and the per-node parent (edge)
count.  With `filt = true`, initialized children are skipped. -/
def bfsCount (st : St) (filt : Bool) :
    Nat → List Nat → Nat → List (Option Nat) → List Nat × List (Option Nat)
  | 0, queue, _, pc => (queue, pc)
  | fuel + 1, queue, idx, pc =>
    if idx < queue.length then
      let node := queue.getD idx 0
      let step := ((st.node node).comp.sources).foldl
        (fun (acc : List Nat × List (Option Nat)) child =>
          if filt && st.isInit child then acc
          else
            let q := if (acc.2.getD child none).isSome then acc.1 else acc.1 ++ [child]
            let p := if (acc.2.getD child none).isSome then acc.2 else acc.2.set child (some 0)
            (q, p.set child (some ((p.getD child none).getD 0 + 1))))
        (queue, pc)
      bfsCount st filt fuel step.1 (idx + 1) step.2
    else (queue, pc)

/-- Kahn's topological ordering loop: decrement a child's count per edge and
emit the child once its count reaches zero. -/
def kahnSort (st : St) (filt : Bool) :
    Nat → List Nat → Nat → List (Option Nat) → List Nat × List (Option Nat)
  | 0, topo, _, pc => (topo, pc)
  | fuel + 1, topo, idx, pc =>
    if idx < topo.length then
      let node := topo.getD idx 0
      let step := ((st.node node).comp.sources).foldl
        (fun (acc : List Nat × List (Option Nat)) child =>
          if filt && st.isInit child then acc
          else
            let c := ((acc.2.getD child none).getD 0) - 1
            let p := acc.2.set child (some c)
            if c = 0 then (acc.1 ++ [child], p) else (acc.1, p))
        (topo, pc)
      kahnSort st filt fuel step.1 (idx + 1) step.2
    else (topo, pc)

/-- The parent counts computed at the start of `DArray::data` (restricted to
not-yet-materialized nodes). -/
def parentCounts (st : St) (root : Nat) : List (Option Nat) :=
  (bfsCount st true (st.nodes.length + 1) [root] 0
    ((List.replicate st.nodes.length none).set root (some 0))).2

/-- One step of the forward classification walk (`DArray::data` lines
172-220), updating the pair (is_allocated, is_applied_on_zero) of id-indexed
membership vectors. -/
def classifyStep (st : St) (acc : List Bool × List Bool) (v : Nat) : List Bool × List Bool :=
  let alloc := acc.1
  let aoz := acc.2
  let srcs := (st.node v).comp.sources
  let onZero := alloc.getD v false || aoz.getD v false
  match (st.node v).comp.getType with
  | .Add =>
    if onZero then
      if alloc.getD (srcs.getD 0 0) false then (alloc, aoz.set (srcs.getD 1 0) true)
      else (alloc, aoz.set (srcs.getD 0 0) true)
    else (alloc, aoz)
  | .Binary =>
    if onZero then
      if alloc.getD (srcs.getD 0 0) false then (alloc, aoz.set (srcs.getD 1 0) true)
      else ((alloc.set (srcs.getD 1 0) true), aoz.set (srcs.getD 0 0) true)
    else (srcs.foldl (fun a s => a.set s true) alloc, aoz)
  | .Unary =>
    let aoz2 := aoz.set (srcs.getD 0 0) true
    if onZero then (alloc, aoz2) else (alloc.set v true, aoz2)
  | .Other => (srcs.foldl (fun a s => a.set s true) alloc, aoz)

/-- The full classification walk over the topological order. -/
def classifyAll (st : St) (topo : List Nat) (alloc aoz : List Bool) : List Bool × List Bool :=
  topo.foldl (classifyStep st) (alloc, aoz)

/-- The whole evaluation plan of `DArray::data`: the topological order of the
not-yet-materialized subgraph, and the final (is_allocated,
is_applied_on_zero) vectors.  `is_allocated` starts as the set of nodes with
parent count greater than one. -/
def schedule (st : St) (root : Nat) : List Nat × List Bool × List Bool :=
  let n := st.nodes.length
  let pc := parentCounts st root
  let alloc0 := (List.range n).map (fun i => decide (1 < ((pc.getD i none).getD 0)))
  let topo := (kahnSort st true (n + 1) [root] 0 pc).1
  (topo, classifyAll st topo alloc0 (List.replicate n false))

/-! ### The evaluator

`Computation::apply` / `apply_on_zero`, `DArrayInternal::data` and the public
`DArray::data` are mutually recursive in the source: `apply` bodies read
operands through the public `.data()` (which runs the whole scheduler when
the operand is not yet materialized), and materialization runs
`apply_on_zero`.  The mutual bundle below mirrors that, with explicit fuel;
every recursive call consumes one unit.  Each function additionally returns
an application log: one entry `i` per execution of node `i`'s
`Computation::apply` / `apply_on_zero` body (the default
`apply_on_zero`-delegates-to-`apply` path logs once, like the single Rust
call it is).  The log is pure instrumentation: the "materialization/call
counter on a test-only Computation Variant" that the specification's
single-evaluation property asks for. -/

/-- The call tags of the evaluator bundle: `Computation::apply`,
`Computation::apply_on_zero`, `DArrayInternal::data`, the reverse
materialization walk, and the public `DArray::data`. -/
inductive ECall where
  | applyC (i : Nat) (res : Buf)
  | applyZ (i : Nat) (res : Buf)
  | internal (i : Nat)
  | walk (items : List Nat) (alloc : List Bool)
  | publicD (i : Nat)

/-- The evaluator, as one fuel-indexed function over the call tags (kept as a
single structural recursion so that concrete runs reduce inside the kernel).
Each branch mirrors one Rust method; wrappers with the source names follow.
The returned triple is (updated world, result buffer, application log); calls
that return no buffer in the source leave the middle component empty. -/
def evalC : Nat → St → ECall → St × Buf × List Nat
  | 0, st, _ => (st, [], [])
  | fuel + 1, st, c =>
    match c with
    | .applyC i res =>
      match (st.node i).comp with
      | .fromData d => (st, addInto res d, [i])
      | .addC p1 p2 =>
        -- AddComp::apply: per operand, read directly if initialized, else
        -- delegate to the operand's own apply.
        let r1 :=
          if st.isInit p1 then (st, addInto res (st.dataOf p1), ([] : List Nat))
          else evalC fuel st (.applyC p1 res)
        let r2 :=
          if r1.1.isInit p2 then (r1.1, addInto r1.2.1 (r1.1.dataOf p2), r1.2.2)
          else
            let t := evalC fuel r1.1 (.applyC p2 r1.2.1)
            (t.1, t.2.1, r1.2.2 ++ t.2.2)
        (r2.1, r2.2.1, i :: r2.2.2)
      | .addScalar ns sc =>
        -- AddScalarComp::apply: apply the non-scalar operand's computation,
        -- then add the scalar (read through the public data()).
        let t1 := evalC fuel st (.applyC ns res)
        let t2 := evalC fuel t1.1 (.publicD sc)
        (t2.1, t1.2.1.map (fun v => v + t2.2.1.getD 0 0), i :: (t1.2.2 ++ t2.2.2))
      | .mulC p1 p2 =>
        -- MulComp::apply: res[i] += p1[i] * p2[i], both operands read through
        -- the public data().
        let t1 := evalC fuel st (.publicD p1)
        let t2 := evalC fuel t1.1 (.publicD p2)
        (t2.1, addInto res (List.zipWith (fun a b => a * b) t1.2.1 t2.2.1),
          i :: (t1.2.2 ++ t2.2.2))
      | .mulScalar ns sc =>
        -- MulScalarComp::apply as written in the source (binary_functions.rs
        -- lines 264-270): it applies the non-scalar operand and then *adds*
        -- the scalar to every slot, instead of multiplying by it.
        let t1 := evalC fuel st (.applyC ns res)
        let t2 := evalC fuel t1.1 (.publicD sc)
        (t2.1, t1.2.1.map (fun v => v + t2.2.1.getD 0 0), i :: (t1.2.2 ++ t2.2.2))
      | .unary s op =>
        -- UnaryComp::apply: res[i] += op(src[i]).
        let t := evalC fuel st (.publicD s)
        (t.1, addInto res (t.2.1.map op.apply), i :: t.2.2)
      | .indexC s idxs _ =>
        -- IndexComp::apply.
        let t := evalC fuel st (.publicD s)
        (t.1, scatterAdd res idxs t.2.1, i :: t.2.2)
      | .sumC s =>
        -- SumComp::apply: res[0] += sum of the source.
        let t := evalC fuel st (.publicD s)
        (t.1, res.set 0 (res.getD 0 0 + t.2.1.sum), i :: t.2.2)
      | .expand s _ =>
        -- ExpandComp::apply: res[i] += src[0].
        let t := evalC fuel st (.publicD s)
        (t.1, res.map (fun v => v + t.2.1.getD 0 0), i :: t.2.2)
    | .applyZ i res =>
      match (st.node i).comp with
      | .addC p1 p2 =>
        -- AddComp::apply_on_zero: four-way match on operand initialization.
        match st.isInit p1, st.isInit p2 with
        | true, true =>
          (st, addInto res (List.zipWith (fun a b => a + b) (st.dataOf p1) (st.dataOf p2)), [i])
        | true, false =>
          let t := evalC fuel st (.applyZ p2 res)
          (t.1, addInto t.2.1 (t.1.dataOf p1), i :: t.2.2)
        | false, true =>
          let t := evalC fuel st (.applyZ p1 res)
          (t.1, addInto t.2.1 (t.1.dataOf p2), i :: t.2.2)
        | false, false =>
          let t1 := evalC fuel st (.applyZ p1 res)
          let t2 := evalC fuel t1.1 (.applyC p2 t1.2.1)
          (t2.1, t2.2.1, i :: (t1.2.2 ++ t2.2.2))
      | .addScalar ns sc =>
        -- AddScalarComp::apply_on_zero: propagate to the non-scalar operand
        -- unconditionally, then add the scalar.
        let t1 := evalC fuel st (.applyZ ns res)
        let t2 := evalC fuel t1.1 (.publicD sc)
        (t2.1, t1.2.1.map (fun v => v + t2.2.1.getD 0 0), i :: (t1.2.2 ++ t2.2.2))
      | .mulC p1 p2 =>
        -- MulComp::apply_on_zero: fuse into whichever operand is
        -- uninitialized (preferring p1), multiplying by the other afterwards.
        if st.isInit p1 then
          let t1 := evalC fuel st (.applyZ p2 res)
          let t2 := evalC fuel t1.1 (.publicD p1)
          (t2.1, mulInto t1.2.1 t2.2.1, i :: (t1.2.2 ++ t2.2.2))
        else
          let t1 := evalC fuel st (.applyZ p1 res)
          let t2 := evalC fuel t1.1 (.publicD p2)
          (t2.1, mulInto t1.2.1 t2.2.1, i :: (t1.2.2 ++ t2.2.2))
      | .mulScalar ns sc =>
        -- MulScalarComp::apply_on_zero: propagate to the non-scalar operand
        -- unconditionally (no is_initialized check), then scale.
        let t1 := evalC fuel st (.applyZ ns res)
        let t2 := evalC fuel t1.1 (.publicD sc)
        (t2.1, t1.2.1.map (fun v => v * t2.2.1.getD 0 0), i :: (t1.2.2 ++ t2.2.2))
      | _ =>
        -- the default Computation::apply_on_zero delegates to apply
        evalC fuel st (.applyC i res)
    | .internal i =>
      -- DArrayInternal::data through the write path: if the cell is Unset,
      -- run apply_on_zero on a zero buffer of length comp.len() and store.
      -- (The source zeroes the cell in place before applying; since the
      -- graph is acyclic no computation can observe its own half-written
      -- cell, so storing after the apply is observationally identical.)
      match st.getMemo i with
      | some _ => (st, [], [])
      | none =>
        let t := evalC fuel st (.applyZ i (List.replicate (compLen st (st.node i).comp) 0))
        (t.1.setMemo i t.2.1, [], t.2.2)
    | .walk items alloc =>
      -- the reverse materialization walk of DArray::data (lines 222-226)
      match items with
      | [] => (st, [], [])
      | v :: rest =>
        let s1 := if alloc.getD v false then evalC fuel st (.internal v) else (st, [], [])
        let s2 := evalC fuel s1.1 (.walk rest alloc)
        (s2.1, [], s1.2.2 ++ s2.2.2)
    | .publicD i =>
      -- the public DArray::data(): early return when initialized, otherwise
      -- plan, materialize every allocated node deepest-first, then
      -- materialize the root itself and return its buffer.
      if st.isInit i then (st, st.dataOf i, [])
      else
        let plan := schedule st i
        let w := evalC fuel st (.walk plan.1.reverse plan.2.1)
        let t := evalC fuel w.1 (.internal i)
        (t.1, t.1.dataOf i, w.2.2 ++ t.2.2)

/-- `Computation::apply(res_array)` of node `i`'s computation. -/
def compApply (fuel : Nat) (st : St) (i : Nat) (res : Buf) : St × Buf × List Nat :=
  evalC fuel st (.applyC i res)

/-- `Computation::apply_on_zero(res_array)` of node `i`'s computation. -/
def compApplyOnZero (fuel : Nat) (st : St) (i : Nat) (res : Buf) : St × Buf × List Nat :=
  evalC fuel st (.applyZ i res)

/-- `DArrayInternal::data` reached through the materialization paths. -/
def internalData (fuel : Nat) (st : St) (i : Nat) : St × List Nat :=
  let t := evalC fuel st (.internal i)
  (t.1, t.2.2)

/-- The public `DArray::data()`. -/
def publicData (fuel : Nat) (st : St) (i : Nat) : St × Buf × List Nat :=
  evalC fuel st (.publicD i)

/-! ### Constructing operations -/

/-- `DArray::from_data` / `From<Vec<f64>>`: a lazy leaf node. -/
def mkFromData (st : St) (d : Buf) : St × Nat :=
  st.pushComp (.fromData d)

/-- The `Add` implementation for `&DArray` (binary_functions.rs lines
138-148), the one the differentiator's gradient merge calls: it picks the
scalar-broadcast variant when *either* operand is scalar, the elementwise
variant otherwise.  `AddScalarComp::new` stores the scalar operand second. -/
def mkAddRef (st : St) (a b : Nat) : St × Nat :=
  if st.nlen a = 1 ∨ st.nlen b = 1 then
    if st.nlen a = 1 then st.pushComp (.addScalar b a)
    else st.pushComp (.addScalar a b)
  else st.pushComp (.addC a b)

/-- The `Mul` implementations (both the `&DArray` and the by-value one use
the same exclusive-or test): scalar-broadcast when exactly one operand is
scalar, elementwise otherwise. -/
def mkMul (st : St) (a b : Nat) : St × Nat :=
  if (decide (st.nlen a = 1)).xor (decide (st.nlen b = 1)) then
    if st.nlen a = 1 then st.pushComp (.mulScalar b a)
    else st.pushComp (.mulScalar a b)
  else st.pushComp (.mulC a b)

/-- `DArray::sum`. -/
def mkSum (st : St) (a : Nat) : St × Nat :=
  st.pushComp (.sumC a)

/-- `ExpandComp::new` wrapped by `DArray::from`. -/
def mkExpand (st : St) (a : Nat) (len : Nat) : St × Nat :=
  st.pushComp (.expand a len)

/-- `DArray::map` on a derivable operation. -/
def mkUnary (st : St) (a : Nat) (op : DOp) : St × Nat :=
  st.pushComp (.unary a op)

/-- `IndexComp::map_indices`. -/
def mkIndex (st : St) (a : Nat) (idxs : List (Nat × Nat)) (len : Nat) : St × Nat :=
  st.pushComp (.indexC a idxs len)

/-- `DArray::index`. -/
def indexOne (st : St) (a : Nat) (i : Nat) : St × Nat :=
  mkIndex st a [(i, 0)] 1

/-- The `enumerate().reduce(..).unwrap().0` pattern of `reduce_max` /
`reduce_min`: fold the picker over the enumerated list (`0` for the empty
list, where the source would panic on `unwrap`). -/
def redPairs (f : Nat × ℤ → Nat × ℤ → Nat × ℤ) : List (Nat × ℤ) → Nat
  | [] => 0
  | p :: rest => (rest.foldl f p).1

/-- `DArray::reduce_max` (index_functions.rs lines 72-75): reads
`self.data()` — running the full evaluation scheduler — to locate the
maximal element, then builds a lazy single-index node. -/
def reduceMax (fuel : Nat) (st : St) (a : Nat) : St × Nat :=
  let t := publicData fuel st a
  indexOne t.1 a (redPairs (fun p1 p2 => if p1.2 > p2.2 then p1 else p2) t.2.1.enum)

/-- `DArray::reduce_min`, symmetric to `reduceMax`. -/
def reduceMin (fuel : Nat) (st : St) (a : Nat) : St × Nat :=
  let t := publicData fuel st a
  indexOne t.1 a (redPairs (fun p1 p2 => if p1.2 < p2.2 then p1 else p2) t.2.1.enum)

/-! ### The differentiator -/

/-- `DArray::topological_sort`: the same BFS/Kahn pair as the scheduler, but
over the full reachable graph (no materialization filtering). -/
def topoFull (st : St) (root : Nat) : List Nat :=
  let n := st.nodes.length
  let pc := (bfsCount st false (n + 1) [root] 0
    ((List.replicate n none).set root (some 0))).2
  (kahnSort st false (n + 1) [root] 0 pc).1

/-- Association-list lookup for the gradient mapping (`FxHashMap::get`). -/
def alGet : List (Nat × Nat) → Nat → Option Nat
  | [], _ => none
  | p :: rest, k => if p.1 = k then some p.2 else alGet rest k

/-- Association-list insert-or-replace (`FxHashMap::insert`). -/
def alSet : List (Nat × Nat) → Nat → Nat → List (Nat × Nat)
  | [], k, v => [(k, v)]
  | p :: rest, k, v => if p.1 = k then (k, v) :: rest else p :: alSet rest k v

/-- `Computation::derivatives(res_grads)` of node `i`'s computation, given
the gradient node `g` of the result: constructs the per-source gradient
nodes, in the construction order of the source code. -/
def compDerivatives (st : St) (i : Nat) (g : Nat) : St × List Nat :=
  match (st.node i).comp with
  | .fromData _ => (st, [])
  | .addC _ _ => (st, [g, g])
  | .addScalar _ _ =>
    -- vec![res_grads.clone(), res_grads.sum()]
    let t := mkSum st g
    (t.1, [g, t.2])
  | .mulC p1 p2 =>
    -- vec![&self.p2 * &res_grads, &self.p1 * &res_grads]
    let t1 := mkMul st p2 g
    let t2 := mkMul t1.1 p1 g
    (t2.1, [t1.2, t2.2])
  | .mulScalar ns sc =>
    -- vec![res_grads * scalar, (res_grads * non_scalar).sum()]
    let t1 := mkMul st g sc
    let t2 := mkMul t1.1 g ns
    let t3 := mkSum t2.1 t2.2
    (t3.1, [t1.2, t3.2])
  | .unary s op =>
    -- vec![self.src.map(self.op.derivative()) * res_grads]
    let t1 := mkUnary st s op.derivative
    let t2 := mkMul t1.1 t1.2 g
    (t2.1, [t2.2])
  | .indexC s idxs _ =>
    -- invert the index pairs and scatter the gradient back
    let t := mkIndex st g (idxs.map (fun p => (p.2, p.1))) (st.nlen s)
    (t.1, [t.2])
  | .sumC s =>
    -- vec![ExpandComp::new(res_grads, src.len())]
    let t := mkExpand st g (st.nlen s)
    (t.1, [t.2])
  | .expand _ _ =>
    -- vec![SumComp { src: res_grads }]
    let t := mkSum st g
    (t.1, [t.2])

/-- The gradient-merge step of `DArray::derive` (lines 291-300): first
contribution is inserted directly; a later contribution replaces the entry
with a freshly built addition node over the old gradient and the new one. -/
def mergeGrads (st : St) (grads : List (Nat × Nat)) (source grad : Nat) :
    St × List (Nat × Nat) :=
  match alGet grads source with
  | none => (st, alSet grads source grad)
  | some old =>
    let t := mkAddRef st old grad
    (t.1, alSet grads source t.2)

/-- Folds `mergeGrads` over the `izip!(sources, source_grads)` pairs. -/
def mergeAll (st : St) (grads : List (Nat × Nat)) :
    List (Nat × Nat) → St × List (Nat × Nat)
  | [] => (st, grads)
  | p :: rest =>
    let t := mergeGrads st grads p.1 p.2
    mergeAll t.1 t.2 rest

/-- The main loop of `DArray::derive`: walk the topological order, fetch the
node's accumulated gradient, build the per-source contributions and merge
them in.  The source unwraps the map lookup; in topological order from the
root every visited node already has an entry, so the `none` arm below is
unreachable and merely keeps the function total. -/
def deriveLoop (st : St) (grads : List (Nat × Nat)) :
    List Nat → St × List (Nat × Nat)
  | [] => (st, grads)
  | v :: rest =>
    match alGet grads v with
    | none => deriveLoop st grads rest
    | some g =>
      let t1 := compDerivatives st v g
      let t2 := mergeAll t1.1 grads (((st.node v).comp.sources).zip t1.2)
      deriveLoop t2.1 t2.2 rest

/-- `DArray::derive`: asserts the target is a scalar (the panic reports the
actual length, modelled as the `Except` error payload), seeds the target's
gradient with a fresh `[1.0]` leaf, then runs the backward pass.  On success
it returns the extended world and the identity-keyed gradient mapping. -/
def deriveMap (st : St) (root : Nat) : Except Nat (St × List (Nat × Nat)) :=
  if st.nlen root = 1 then
    let t := mkFromData st [1]
    .ok (deriveLoop t.1 [(root, t.2)] (topoFull t.1 root))
  else .error (st.nlen root)

/-! ### The specification-side evaluator

The refinement claim C1 compares `data()` against "the naive bottom-up
mathematical evaluation of the computation graph (each node's value computed
recursively from its sources' values)".  `naiveEval` is that second,
spec-worded definition: a direct recursive evaluator with no scheduling, no
memoization and no accumulate-into-destination protocol. -/

/-- Modelled from the spec: naive recursive bottom-up evaluation of a node's
mathematical value. -/
def naiveEval (st : St) : Nat → Nat → Buf
  | 0, _ => []
  | fuel + 1, i =>
    match (st.node i).comp with
    | .fromData d => d
    | .addC p1 p2 => List.zipWith (fun a b => a + b) (naiveEval st fuel p1) (naiveEval st fuel p2)
    | .addScalar ns sc => (naiveEval st fuel ns).map (fun v => v + (naiveEval st fuel sc).getD 0 0)
    | .mulC p1 p2 => List.zipWith (fun a b => a * b) (naiveEval st fuel p1) (naiveEval st fuel p2)
    | .mulScalar ns sc => (naiveEval st fuel ns).map (fun v => v * (naiveEval st fuel sc).getD 0 0)
    | .unary s op => (naiveEval st fuel s).map op.apply
    | .indexC s idxs L => scatterAdd (List.replicate L 0) idxs (naiveEval st fuel s)
    | .sumC s => [(naiveEval st fuel s).sum]
    | .expand s L => List.replicate L ((naiveEval st fuel s).getD 0 0)

/-! ### Well-formedness

The constructors of the library enforce, with `assert!`s and the scalar
dispatch, that every node's recipe is shape-consistent and refers only to
previously created nodes (the graph is a DAG by construction).  `wfNode`
states exactly those construction-time guarantees. -/

/-- Construction-time invariants of one node: sources strictly older, the
shape side conditions of each constructor, and the stored length equal to
`comp.len()`. -/
def wfNode (st : St) (i : Nat) : Bool :=
  match (st.node i).comp with
  | .fromData d => (st.node i).length == d.length
  | .addC p1 p2 =>
    decide (p1 < i) && decide (p2 < i) && (st.nlen p1 == st.nlen p2)
      && ((st.node i).length == st.nlen p1)
  | .addScalar ns sc =>
    decide (ns < i) && decide (sc < i) && (st.nlen sc == 1)
      && ((st.node i).length == st.nlen ns)
  | .mulC p1 p2 =>
    decide (p1 < i) && decide (p2 < i) && (st.nlen p1 == st.nlen p2)
      && ((st.node i).length == st.nlen p1)
  | .mulScalar ns sc =>
    decide (ns < i) && decide (sc < i) && (st.nlen sc == 1)
      && ((st.node i).length == st.nlen ns)
  | .unary s _ => decide (s < i) && ((st.node i).length == st.nlen s)
  | .indexC s idxs L =>
    decide (s < i) && ((st.node i).length == L)
      && idxs.all (fun p => decide (p.1 < st.nlen s) && decide (p.2 < L))
  | .sumC s => decide (s < i) && ((st.node i).length == 1)
  | .expand s L =>
    decide (s < i) && (st.nlen s == 1) && ((st.node i).length == L)

/-- Every stored node is well formed. -/
abbrev Wf (st : St) : Prop := ∀ i, i < st.nodes.length → wfNode st i = true

/-- `t` extends `s`: the node store only grew and old nodes are untouched
(memo cells may differ — materialization mutates only those). -/
def StExt (s t : St) : Prop :=
  s.nodes.length ≤ t.nodes.length ∧ ∀ i, i < s.nodes.length → t.node i = s.node i

/-! ### Concrete graphs used by the claims -/

/-- The fused graph of claim C1: leaves `a = [0, 0]`, `b = [1, 1]`,
`s = [2]`, then `&a + &(&b * &s)` built through the operator entry points
(node 3 is the scalar-broadcast product, node 4 the elementwise sum). -/
def stFused : St :=
  let t0 := mkFromData St.empty [0, 0]
  let t1 := mkFromData t0.1 [1, 1]
  let t2 := mkFromData t1.1 [2]
  let t3 := mkMul t2.1 t1.2 t2.2
  (mkAddRef t3.1 t0.2 t3.2).1

/-- The graph of claim C2: `arr = [3, 4]` (node 0), scalar `[2]` (node 1),
and their broadcast product (node 2). -/
def stMulScalarEx : St :=
  let t0 := mkFromData St.empty [3, 4]
  let t1 := mkFromData t0.1 [2]
  (mkMul t1.1 t0.2 t1.2).1

/-- A shared-subexpression graph for claim C3: `a = [1, 1]` (node 0),
`ns = &a + &a` (node 1), scalar `[2]` (node 2), `m = &ns * &sc` (node 3,
scalar broadcast) and the root `&ns + &m` (node 4).  Node 1 has two
not-yet-materialized consumers (nodes 3 and 4). -/
def stShared : St :=
  let t0 := mkFromData St.empty [1, 1]
  let t1 := mkAddRef t0.1 t0.2 t0.2
  let t2 := mkFromData t1.1 [2]
  let t3 := mkMul t2.1 t1.2 t2.2
  (mkAddRef t3.1 t1.2 t3.2).1

/-- The diamond of the claim C3 test snippet: `a = [1, 1]` (node 0),
`c = &a + &a` (node 1), `d = &c + &c` (node 2). -/
def stDiamond : St :=
  let t0 := mkFromData St.empty [1, 1]
  let t1 := mkAddRef t0.1 t0.2 t0.2
  (mkAddRef t1.1 t1.2 t1.2).1

/-- The squaring graph for claims C4 and C10: `x = [2]` (node 0) and
`y = &x * &x` (node 1), whose derivative merges two contributions into `x`. -/
def stMulSq : St :=
  let t0 := mkFromData St.empty [2]
  (mkMul t0.1 t0.2 t0.2).1

/-- The unary graph for claim C6: `x = [1, 2]` (node 0) and a pointwise map
over it (node 1). -/
def stUnaryEx : St :=
  let t0 := mkFromData St.empty [1, 2]
  (mkUnary t0.1 t0.2 .ident).1

/-- A single uninitialized leaf `[1, 2]`, used by claims C7 and C9. -/
def stLeafPair : St :=
  (mkFromData St.empty [1, 2]).1

/-- The graph of claim C8, for an arbitrary leaf buffer `d`: the leaf
(node 0) and its `sum()` (node 1). -/
def stSumOf (d : Buf) : St :=
  let t0 := mkFromData St.empty d
  (mkSum t0.1 t0.2).1

/-- The world returned by a successful `deriveMap` run (used to state closed
corollaries about concrete graphs). -/
def deriveStOf (st : St) (root : Nat) : St :=
  match deriveMap st root with
  | .ok p => p.1
  | .error _ => st

/-- The gradient mapping returned by a successful `deriveMap` run. -/
def deriveGradsOf (st : St) (root : Nat) : List (Nat × Nat) :=
  match deriveMap st root with
  | .ok p => p.2
  | .error _ => []

/-! ## Claim theorems -/

/-- C1: the claim says `.data()` always equals the naive bottom-up
mathematical evaluation of the graph and, in particular, that
`(&a + &(&b * &s)).data()` at index `i` is `a[i] + b[i]*s`.  The code
violates this: with `a = [0,0]`, `b = [1,1]`, `s = [2]` the scheduler fuses
the scalar product through `AddComp::apply_on_zero`, reaching
`MulScalarComp::apply`, which adds the scalar instead of multiplying by it;
`data()` yields `[3, 3]` where the naive evaluation yields `[2, 2]`. -/
theorem c1_fused_data_diverges_from_naive :
    (publicData 32 stFused 4).2.1 = [3, 3] ∧
    naiveEval stFused 10 4 = [2, 2] ∧
    (publicData 32 stFused 4).2.1 ≠ naiveEval stFused 10 4 := by decide

/-- C2: the claim says the scalar-broadcast multiply's `apply(buffer)` turns
`b` into `b[i] + arr[i]*c`.  With `arr = [3, 4]`, `c = 2` and starting buffer
`[10, 20]`, the source's `MulScalarComp::apply` instead produces
`b[i] + arr[i] + c = [15, 26]`, not `[16, 28]`; both operand orderings build
the same computation node, so both diverge identically. -/
theorem c2_mulscalar_apply_adds_instead_of_multiplying :
    (compApply 16 stMulScalarEx 2 [10, 20]).2.1 = [10 + 3 + 2, 20 + 4 + 2] ∧
    ([10 + 3 + 2, 20 + 4 + 2] : Buf) ≠ [10 + 3 * 2, 20 + 4 * 2] ∧
    mkMul stMulScalarEx 0 1 = mkMul stMulScalarEx 1 0 := by decide

/-- C3: the claim says every not-yet-materialized node with two or more
not-yet-materialized consumers is marked must-allocate and applied exactly
once.  In `stShared`, node 1 (`ns = &a + &a`) has parent count 2 and is duly
marked must-allocate, yet its computation body runs twice during the single
`data()` call on the root: once to materialize it, and once more because
`MulScalarComp::apply_on_zero` propagates into its non-scalar operand without
checking `is_initialized`.  The claim's own `c = &a + &a; d = &c + &c`
snippet (`stDiamond`) does apply `c` exactly once — the defect is specific to
the scalar-broadcast fusion paths. -/
theorem c3_shared_node_applied_twice :
    (parentCounts stShared 4).getD 1 none = some 2 ∧
    (schedule stShared 4).2.1.getD 1 false = true ∧
    (publicData 32 stShared 4).2.2.count 1 = 2 ∧
    (publicData 32 stDiamond 2).2.2.count 1 = 1 := by decide

/-- C5: the claim says the symbolic derivative of `min(x, c)` is the strict
less-than indicator (1 for `x < c`, 0 for `x > c`).  The source's
`MinFunc::derivative` returns `GtFunc { val }`, the exact opposite: at
`c = 3` it evaluates to 0 on `x = 2 < 3` and to 1 on `x = 4 > 3`. -/
theorem c5_min_derivative_is_gt_indicator :
    (DOp.minf 3).derivative = DOp.gt 3 ∧
    (DOp.minf 3).derivative.apply 2 = 0 ∧
    (DOp.minf 3).derivative.apply 4 = 1 := by decide

/-- C6 counterexample: the claim says a unary pointwise-map node is handled
by the Unary classification — its source marked applied-on-zero and the node
itself allocated when not fused.  In `stUnaryEx` (a map over a leaf, read at
the root) the code leaves the source out of the applied-on-zero set and the
map node out of the allocated set, because `UnaryComp` reports the default
`Other` classification tag. -/
theorem c6_unary_falls_to_other_branch :
    Comp.getType (.unary 0 .ident) = .Other ∧
    (schedule stUnaryEx 1).1 = [1, 0] ∧
    (schedule stUnaryEx 1).2.2.getD 0 false = false ∧
    (schedule stUnaryEx 1).2.1.getD 1 false = false ∧
    (schedule stUnaryEx 1).2.1.getD 0 false = true := by decide

/-- C7 counterexample: the claim says every constructing entry point,
including the max- and min-reducing index operations, leaves the
initialization state of every existing node unchanged.  `reduce_max` /
`reduce_min` read `self.data()` to locate the extremal index, so constructing
them over the uninitialized leaf `stLeafPair` materializes that leaf. -/
theorem c7_reduce_ops_materialize_their_source :
    stLeafPair.isInit 0 = false ∧
    (reduceMax 16 stLeafPair 0).1.isInit 0 = true ∧
    (reduceMin 16 stLeafPair 0).1.isInit 0 = true := by decide

/-! ### Helper lemmas about the node store and the classification walk -/

theorem push_node_self (st : St) (c : Comp) (L : Nat) :
    ((st.push c L).1).node (st.push c L).2 = ⟨c, L⟩ := by
  simp [St.push, St.node, List.getD_eq_getElem?_getD, List.getElem?_concat_length]

theorem push_node_lt (st : St) (c : Comp) (L i : Nat) (h : i < st.nodes.length) :
    ((st.push c L).1).node i = st.node i := by
  simp [St.push, St.node, List.getD_eq_getElem?_getD, List.getElem?_append, h]

theorem push_nodes_length (st : St) (c : Comp) (L : Nat) :
    (st.push c L).1.nodes.length = st.nodes.length + 1 := by
  simp [St.push]

/-- Appending a node never touches any memoization cell: the fresh cell is
`Unset`, which is also what reading past the end yields. -/
theorem push_memo (st : St) (c : Comp) (L i : Nat) :
    ((st.push c L).1).getMemo i = st.getMemo i := by
  simp only [St.push, St.getMemo, List.getD_eq_getElem?_getD]
  by_cases h : i < st.memo.length
  · rw [List.getElem?_append, if_pos h]
  · rw [List.getElem?_append, if_neg h, List.getElem?_eq_none (le_of_not_lt h)]
    rcases hk : i - st.memo.length with _ | k <;> simp

theorem pushComp_memo (st : St) (c : Comp) (i : Nat) :
    ((st.pushComp c).1).getMemo i = st.getMemo i :=
  push_memo st c (compLen st c) i

theorem getD_set_true_mono (l : List Bool) (x y : Nat) (h : l.getD x false = true) :
    (l.set y true).getD x false = true := by
  simp only [List.getD_eq_getElem?_getD] at h ⊢
  rcases eq_or_ne y x with rfl | hne
  · by_cases hx : y < l.length
    · simp [List.getElem?_set_self hx]
    · rw [List.getElem?_eq_none (le_of_not_lt hx)] at h
      simp at h
  · rw [List.getElem?_set_ne hne]
    exact h

theorem getD_set_true_self (l : List Bool) (x : Nat) (hx : x < l.length) :
    (l.set x true).getD x false = true := by
  simp [List.getD_eq_getElem?_getD, List.getElem?_set_self hx]

theorem foldl_set_true_mono (srcs : List Nat) (l : List Bool) (x : Nat)
    (h : l.getD x false = true) :
    (srcs.foldl (fun a s => a.set s true) l).getD x false = true := by
  induction srcs generalizing l with
  | nil => exact h
  | cons s rest ih => exact ih _ (getD_set_true_mono _ _ _ h)

theorem foldl_set_true_length (srcs : List Nat) (l : List Bool) :
    (srcs.foldl (fun a s => a.set s true) l).length = l.length := by
  induction srcs generalizing l with
  | nil => rfl
  | cons s rest ih => simp [ih]

theorem foldl_set_true_self (srcs : List Nat) (l : List Bool) (x : Nat)
    (hx : x < l.length) (hmem : x ∈ srcs) :
    (srcs.foldl (fun a s => a.set s true) l).getD x false = true := by
  induction srcs generalizing l with
  | nil => cases hmem
  | cons s rest ih =>
    simp only [List.foldl_cons]
    rcases List.mem_cons.mp hmem with rfl | hmem2
    · exact foldl_set_true_mono _ _ _ (getD_set_true_self _ _ hx)
    · exact ih _ (by simpa using hx) hmem2

/-- The classification walk only ever inserts into `is_allocated`. -/
theorem classifyStep_alloc_mono (st : St) (acc : List Bool × List Bool) (u x : Nat)
    (h : acc.1.getD x false = true) :
    (classifyStep st acc u).1.getD x false = true := by
  simp only [classifyStep]
  split <;> (try split_ifs) <;>
    first
      | exact h
      | exact getD_set_true_mono _ _ _ h
      | exact foldl_set_true_mono _ _ _ h

theorem classifyStep_alloc_length (st : St) (acc : List Bool × List Bool) (u : Nat) :
    (classifyStep st acc u).1.length = acc.1.length := by
  simp only [classifyStep]
  split <;> (try split_ifs) <;>
    simp [foldl_set_true_length, List.length_set]

theorem classifyAll_alloc_mono (st : St) (topo : List Nat) (alloc aoz : List Bool)
    (x : Nat) (h : alloc.getD x false = true) :
    (classifyAll st topo alloc aoz).1.getD x false = true := by
  induction topo generalizing alloc aoz with
  | nil => simpa [classifyAll] using h
  | cons u rest ih =>
    have h2 := classifyStep_alloc_mono st (alloc, aoz) u x h
    have e : classifyAll st (u :: rest) alloc aoz =
        classifyAll st rest (classifyStep st (alloc, aoz) u).1 (classifyStep st (alloc, aoz) u).2 := by
      simp [classifyAll]
    rw [e]
    exact ih _ _ h2

/-- C6 (amended): unary pointwise-map nodes carry the default `Other`
classification tag (`UnaryComp` does not override `get_type`), no computation
variant ever reports the `Unary` tag, and consequently the scheduler handles
every unary node in the conservative `Other` branch, which marks the node's
single source as must-allocate whenever the node is classified. -/
theorem c6_unary_handled_by_other_branch :
    (∀ (s : Nat) (op : DOp), (Comp.unary s op).getType = .Other) ∧
    (∀ c : Comp, c.getType ≠ .Unary) ∧
    (∀ (st : St) (topo : List Nat) (alloc aoz : List Bool) (v s : Nat) (op : DOp),
      v ∈ topo → (st.node v).comp = .unary s op → s < alloc.length →
      (classifyAll st topo alloc aoz).1.getD s false = true) := by
  refine ⟨fun s op => rfl, fun c => by cases c <;> simp [Comp.getType], ?_⟩
  intro st topo alloc aoz v s op hv hc hs
  induction topo generalizing alloc aoz with
  | nil => cases hv
  | cons u rest ih =>
    have e : classifyAll st (u :: rest) alloc aoz =
        classifyAll st rest (classifyStep st (alloc, aoz) u).1
          (classifyStep st (alloc, aoz) u).2 := by
      simp [classifyAll]
    rw [e]
    rcases List.mem_cons.mp hv with rfl | hv2
    · have hstep : (classifyStep st (alloc, aoz) v).1.getD s false = true := by
        simp only [classifyStep, hc, Comp.getType, Comp.sources]
        exact foldl_set_true_self _ _ _ hs (by simp)
      exact classifyAll_alloc_mono st rest _ _ s hstep
    · exact ih (classifyStep st (alloc, aoz) u).1 (classifyStep st (alloc, aoz) u).2 hv2
        (by rw [classifyStep_alloc_length]; exact hs)

/-- Witness for the hypotheses of `c6_unary_handled_by_other_branch`: the
concrete unary graph `stUnaryEx`, whose map node sits in the computed
topological order, forces its leaf source into the allocated set. -/
theorem c6_unary_handled_by_other_branch_witness :
    (classifyAll stUnaryEx [1, 0] [false, false] [false, false]).1.getD 0 false = true :=
  c6_unary_handled_by_other_branch.2.2 stUnaryEx [1, 0] [false, false] [false, false]
    1 0 .ident (by decide) (by decide) (by decide)

/-- C7 (amended): every constructing entry point other than
`reduce_max`/`reduce_min` is lazy — it changes no memoization cell, and the
freshly appended node's cell starts `Unset` (reading it yields `none`).  The
two reducing constructors first evaluate `self.data()` on their source to
pick the extremal index (materializing exactly what that `data()` call
materializes) and are otherwise equally lazy; in the concrete `stLeafPair`
graph the new index node starts `Unset` while the source leaf has become
initialized. -/
theorem c7_constructors_materialize_nothing :
    (∀ (st : St) (c : Comp) (L i : Nat), ((st.push c L).1).getMemo i = st.getMemo i) ∧
    (∀ (st : St) (d : Buf) (i : Nat), ((mkFromData st d).1).getMemo i = st.getMemo i) ∧
    (∀ (st : St) (a b i : Nat), ((mkAddRef st a b).1).getMemo i = st.getMemo i) ∧
    (∀ (st : St) (a b i : Nat), ((mkMul st a b).1).getMemo i = st.getMemo i) ∧
    (∀ (st : St) (a i : Nat), ((mkSum st a).1).getMemo i = st.getMemo i) ∧
    (∀ (st : St) (a L i : Nat), ((mkExpand st a L).1).getMemo i = st.getMemo i) ∧
    (∀ (st : St) (a : Nat) (op : DOp) (i : Nat),
      ((mkUnary st a op).1).getMemo i = st.getMemo i) ∧
    (∀ (st : St) (a : Nat) (idxs : List (Nat × Nat)) (L i : Nat),
      ((mkIndex st a idxs L).1).getMemo i = st.getMemo i) ∧
    (∀ (fuel : Nat) (st : St) (a i : Nat),
      ((reduceMax fuel st a).1).getMemo i = ((publicData fuel st a).1).getMemo i ∧
      ((reduceMin fuel st a).1).getMemo i = ((publicData fuel st a).1).getMemo i) ∧
    ((reduceMax 16 stLeafPair 0).1.getMemo (reduceMax 16 stLeafPair 0).2 = none ∧
      stLeafPair.isInit 0 = false ∧ (reduceMax 16 stLeafPair 0).1.isInit 0 = true) := by
  refine ⟨push_memo, fun st d i => pushComp_memo _ _ _, ?_, ?_, ?_, ?_, ?_, ?_, ?_, by decide⟩
  · intro st a b i
    unfold mkAddRef
    split_ifs <;> exact pushComp_memo _ _ _
  · intro st a b i
    unfold mkMul
    split_ifs <;> exact pushComp_memo _ _ _
  · exact fun st a i => pushComp_memo _ _ _
  · exact fun st a L i => pushComp_memo _ _ _
  · exact fun st a op i => pushComp_memo _ _ _
  · exact fun st a idxs L i => pushComp_memo _ _ _
  · intro fuel st a i
    exact ⟨pushComp_memo _ _ _, pushComp_memo _ _ _⟩

/-- C9: `derive()` on a node whose length is not 1 fails immediately with an
error reporting the node's actual length and produces no gradient mapping;
on any length-1 node the precondition passes and the backward pass runs to a
result. -/
theorem c9_derive_scalar_precondition (st : St) (root : Nat) :
    (st.nlen root ≠ 1 → deriveMap st root = .error (st.nlen root)) ∧
    (st.nlen root = 1 → ∃ p, deriveMap st root = .ok p) := by
  constructor
  · intro h
    simp [deriveMap, h]
  · intro h
    refine ⟨deriveLoop (mkFromData st [1]).1 [(root, (mkFromData st [1]).2)]
      (topoFull (mkFromData st [1]).1 root), ?_⟩
    unfold deriveMap
    rw [if_pos h]

/-- Witness for `c9_derive_scalar_precondition`: the length-2 leaf is
rejected with its length reported, the scalar sum graph is accepted. -/
theorem c9_derive_scalar_precondition_witness :
    deriveMap stLeafPair 0 = .error 2 ∧ ∃ p, deriveMap (stSumOf [3, 4]) 1 = .ok p := by
  constructor
  · have h := (c9_derive_scalar_precondition stLeafPair 0).1 (by decide)
    have e : stLeafPair.nlen 0 = 2 := by decide
    rw [e] at h
    exact h
  · exact (c9_derive_scalar_precondition (stSumOf [3, 4]) 1).2 (by decide)

/-- C4: merging a further gradient contribution into an existing entry is
pure graph construction.  The merge operator (`old_grad + grad` through the
`Add` impl for `&DArray`) always appends one fresh node whose memo cell is
untouched everywhere, whose classification tag is `Add`, and whose two
sources are exactly the old gradient node and the new contribution (in one
of the two orders — `AddScalarComp::new` stores the scalar operand second);
`mergeGrads` replaces the map entry with precisely that node and performs no
buffer arithmetic.  In the concrete two-consumer graph `stMulSq`, the final
gradient of the leaf is the node `5 = addScalar 4 3`, the sum node of its
two contributions (nodes 3 and 4). -/
theorem c4_gradient_merge_is_graph_construction :
    (∀ (st : St) (a b : Nat),
      (mkAddRef st a b).2 = st.nodes.length ∧
      (mkAddRef st a b).1.nodes.length = st.nodes.length + 1 ∧
      (∀ i, (mkAddRef st a b).1.getMemo i = st.getMemo i) ∧
      ((mkAddRef st a b).1.node (mkAddRef st a b).2).comp.getType = .Add ∧
      (((mkAddRef st a b).1.node (mkAddRef st a b).2).comp.sources = [a, b] ∨
        ((mkAddRef st a b).1.node (mkAddRef st a b).2).comp.sources = [b, a])) ∧
    (∀ (st : St) (grads : List (Nat × Nat)) (s g old : Nat),
      alGet grads s = some old →
      mergeGrads st grads s g = ((mkAddRef st old g).1, alSet grads s (mkAddRef st old g).2)) ∧
    (alGet (deriveGradsOf stMulSq 1) 0 = some 5 ∧
      ((deriveStOf stMulSq 1).node 5).comp = .addScalar 4 3 ∧
      ((deriveStOf stMulSq 1).node 5).comp.getType = .Add ∧
      (deriveStOf stMulSq 1).getMemo 5 = none) := by
  refine ⟨?_, ?_, by decide⟩
  · intro st a b
    unfold mkAddRef St.pushComp
    split_ifs <;>
      exact ⟨rfl, push_nodes_length _ _ _, fun i => push_memo _ _ _ _,
        by rw [push_node_self]; rfl, by rw [push_node_self]; simp [Comp.sources]⟩
  · intro st grads s g old h
    unfold mergeGrads
    rw [h]

/-- Witness for `c4_gradient_merge_is_graph_construction`: the merge branch
fires on a mapping that already holds an entry for the source. -/
theorem c4_gradient_merge_is_graph_construction_witness :
    mergeGrads stMulSq [(0, 3)] 0 4 =
      ((mkAddRef stMulSq 3 4).1, alSet [(0, 3)] 0 (mkAddRef stMulSq 3 4).2) :=
  c4_gradient_merge_is_graph_construction.2.1 stMulSq [(0, 3)] 0 4 3 (by decide)

/-- One-step unfolding of the public `data()` entry of the evaluator on an
uninitialized node, stated with the scheduler plan spelled out (used to drive
symbolic runs without re-normalizing shared subterms). -/
theorem evalC_publicD_false (fuel : Nat) (st : St) (i : Nat) (h : st.isInit i = false) :
    evalC (fuel + 1) st (.publicD i) =
      ((evalC fuel (evalC fuel st (.walk (schedule st i).1.reverse (schedule st i).2.1)).1
          (.internal i)).1,
        (evalC fuel (evalC fuel st (.walk (schedule st i).1.reverse (schedule st i).2.1)).1
          (.internal i)).1.dataOf i,
        (evalC fuel st (.walk (schedule st i).1.reverse (schedule st i).2.1)).2.2 ++
          (evalC fuel (evalC fuel st (.walk (schedule st i).1.reverse (schedule st i).2.1)).1
            (.internal i)).2.2) := by
  conv_lhs => rw [evalC]
  simp only [h, Bool.false_eq_true, if_false]

set_option maxHeartbeats 2000000 in
/-- C8: differentiating `a.sum()` for a leaf `a` of arbitrary data `d` yields
a gradient mapping whose entry for `a` is node 3, an expand node of length
`d.length` seeded from the `[1]` gradient; reading its data produces the
all-ones buffer of length `d.length`. -/
theorem c8_sum_derive_gradient_all_ones (d : Buf) :
    deriveMap (stSumOf d) 1 =
      .ok (⟨[⟨.fromData d, d.length⟩, ⟨.sumC 0, 1⟩, ⟨.fromData [1], 1⟩,
          ⟨.expand 2 d.length, d.length⟩], [none, none, none, none]⟩,
        [(1, 2), (0, 3)]) ∧
    (⟨[⟨.fromData d, d.length⟩, ⟨.sumC 0, 1⟩, ⟨.fromData [1], 1⟩,
        ⟨.expand 2 d.length, d.length⟩], [none, none, none, none]⟩ : St).nlen 3 = d.length ∧
    (publicData 6 (⟨[⟨.fromData d, d.length⟩, ⟨.sumC 0, 1⟩, ⟨.fromData [1], 1⟩,
        ⟨.expand 2 d.length, d.length⟩], [none, none, none, none]⟩ : St) 3).2.1 =
      List.replicate d.length 1 := by
  refine ⟨rfl, rfl, ?_⟩
  show (evalC (5 + 1) (⟨[⟨.fromData d, d.length⟩, ⟨.sumC 0, 1⟩, ⟨.fromData [1], 1⟩,
      ⟨.expand 2 d.length, d.length⟩], [none, none, none, none]⟩ : St) (.publicD 3)).2.1 =
    List.replicate d.length 1
  rw [evalC_publicD_false 5 (⟨[⟨.fromData d, d.length⟩, ⟨.sumC 0, 1⟩, ⟨.fromData [1], 1⟩,
      ⟨.expand 2 d.length, d.length⟩], [none, none, none, none]⟩ : St) 3 rfl]
  have hsch : schedule (⟨[⟨.fromData d, d.length⟩, ⟨.sumC 0, 1⟩, ⟨.fromData [1], 1⟩,
      ⟨.expand 2 d.length, d.length⟩], [none, none, none, none]⟩ : St) 3 =
      ([3, 2], [false, false, true, false], [false, false, false, false]) := rfl
  rw [hsch]
  dsimp only
  have hrev : ([3, 2] : List Nat).reverse = [2, 3] := rfl
  rw [hrev]
  have hwalk : evalC 5 (⟨[⟨.fromData d, d.length⟩, ⟨.sumC 0, 1⟩, ⟨.fromData [1], 1⟩,
      ⟨.expand 2 d.length, d.length⟩], [none, none, none, none]⟩ : St)
      (.walk [2, 3] [false, false, true, false]) =
      (⟨[⟨.fromData d, d.length⟩, ⟨.sumC 0, 1⟩, ⟨.fromData [1], 1⟩,
        ⟨.expand 2 d.length, d.length⟩], [none, none, some [1], none]⟩, [], [2]) := rfl
  rw [hwalk]
  dsimp only
  have hint : evalC 5 (⟨[⟨.fromData d, d.length⟩, ⟨.sumC 0, 1⟩, ⟨.fromData [1], 1⟩,
      ⟨.expand 2 d.length, d.length⟩], [none, none, some [1], none]⟩ : St) (.internal 3) =
      (⟨[⟨.fromData d, d.length⟩, ⟨.sumC 0, 1⟩, ⟨.fromData [1], 1⟩,
        ⟨.expand 2 d.length, d.length⟩],
        [none, none, some [1],
          some ((List.replicate d.length 0).map (fun v => v + 1))]⟩, [], [3]) := rfl
  rw [hint]
  dsimp only
  have hdata : (⟨[⟨.fromData d, d.length⟩, ⟨.sumC 0, 1⟩, ⟨.fromData [1], 1⟩,
      ⟨.expand 2 d.length, d.length⟩],
      [none, none, some [1],
        some ((List.replicate d.length 0).map (fun v => v + 1))]⟩ : St).dataOf 3 =
      (List.replicate d.length 0).map (fun v => v + 1) := rfl
  rw [hdata, List.map_replicate]
  norm_num

/-! ### State extension and well-formedness stability (toward claim C10) -/

theorem stExt_refl (st : St) : StExt st st := ⟨le_refl _, fun _ _ => rfl⟩

theorem stExt_trans {s t u : St} (h1 : StExt s t) (h2 : StExt t u) : StExt s u :=
  ⟨le_trans h1.1 h2.1, fun i hi => by rw [h2.2 i (lt_of_lt_of_le hi h1.1), h1.2 i hi]⟩

theorem stExt_push (st : St) (c : Comp) (L : Nat) : StExt st (st.push c L).1 :=
  ⟨by simp [St.push], fun i hi => push_node_lt st c L i hi⟩

theorem stExt_pushComp (st : St) (c : Comp) : StExt st (st.pushComp c).1 :=
  stExt_push st c (compLen st c)

theorem stExt_nlen {s t : St} (h : StExt s t) (i : Nat) (hi : i < s.nodes.length) :
    t.nlen i = s.nlen i := by
  unfold St.nlen
  rw [h.2 i hi]

theorem lt_length_of_nlen_ne_zero (st : St) (i : Nat) (h : st.nlen i ≠ 0) :
    i < st.nodes.length := by
  by_contra hc
  apply h
  unfold St.nlen St.node
  rw [List.getD_eq_getElem?_getD, List.getElem?_eq_none (le_of_not_lt hc)]
  rfl

/-- Well-formedness of a stored node transfers along any extension: the
node's recipe and the lengths of its (strictly older) sources are untouched. -/
theorem wfNode_of_ext {s t : St} (h : StExt s t) {i : Nat} (hi : i < s.nodes.length)
    (hw : wfNode s i = true) : wfNode t i = true := by
  have hnode : t.node i = s.node i := h.2 i hi
  have hlen : ∀ x, x < i → t.nlen x = s.nlen x := fun x hx =>
    stExt_nlen h x (lt_trans hx hi)
  unfold wfNode at hw ⊢
  rw [hnode]
  cases hc : (s.node i).comp with
  | fromData dd => rw [hc] at hw; exact hw
  | addC p1 p2 =>
    rw [hc] at hw
    simp only [Bool.and_eq_true, decide_eq_true_eq, beq_iff_eq] at hw ⊢
    exact ⟨⟨⟨hw.1.1.1, hw.1.1.2⟩, by rw [hlen p1 hw.1.1.1, hlen p2 hw.1.1.2]; exact hw.1.2⟩,
      by rw [hlen p1 hw.1.1.1]; exact hw.2⟩
  | addScalar ns sc =>
    rw [hc] at hw
    simp only [Bool.and_eq_true, decide_eq_true_eq, beq_iff_eq] at hw ⊢
    exact ⟨⟨⟨hw.1.1.1, hw.1.1.2⟩, by rw [hlen sc hw.1.1.2]; exact hw.1.2⟩,
      by rw [hlen ns hw.1.1.1]; exact hw.2⟩
  | mulC p1 p2 =>
    rw [hc] at hw
    simp only [Bool.and_eq_true, decide_eq_true_eq, beq_iff_eq] at hw ⊢
    exact ⟨⟨⟨hw.1.1.1, hw.1.1.2⟩, by rw [hlen p1 hw.1.1.1, hlen p2 hw.1.1.2]; exact hw.1.2⟩,
      by rw [hlen p1 hw.1.1.1]; exact hw.2⟩
  | mulScalar ns sc =>
    rw [hc] at hw
    simp only [Bool.and_eq_true, decide_eq_true_eq, beq_iff_eq] at hw ⊢
    exact ⟨⟨⟨hw.1.1.1, hw.1.1.2⟩, by rw [hlen sc hw.1.1.2]; exact hw.1.2⟩,
      by rw [hlen ns hw.1.1.1]; exact hw.2⟩
  | unary s0 op =>
    rw [hc] at hw
    simp only [Bool.and_eq_true, decide_eq_true_eq, beq_iff_eq] at hw ⊢
    exact ⟨hw.1, by rw [hlen s0 hw.1]; exact hw.2⟩
  | indexC s0 idxs L =>
    rw [hc] at hw
    simp only [Bool.and_eq_true, decide_eq_true_eq, beq_iff_eq, List.all_eq_true] at hw ⊢
    exact ⟨⟨hw.1.1, hw.1.2⟩, fun p hp => by
      rw [hlen s0 hw.1.1]; exact hw.2 p hp⟩
  | sumC s0 =>
    rw [hc] at hw
    exact hw
  | expand s0 L =>
    rw [hc] at hw
    simp only [Bool.and_eq_true, decide_eq_true_eq, beq_iff_eq] at hw ⊢
    exact ⟨⟨hw.1.1, by rw [hlen s0 hw.1.1]; exact hw.1.2⟩, hw.2⟩

theorem pushComp_spec (st : St) (c : Comp) :
    StExt st (st.pushComp c).1 ∧ (st.pushComp c).2 < (st.pushComp c).1.nodes.length ∧
    (st.pushComp c).1.nlen (st.pushComp c).2 = compLen st c := by
  refine ⟨stExt_pushComp st c, ?_, ?_⟩
  · show st.nodes.length < (st.push c (compLen st c)).1.nodes.length
    rw [push_nodes_length]
    omega
  · show (st.push c (compLen st c)).1.nlen (st.push c (compLen st c)).2 = compLen st c
    unfold St.nlen
    rw [push_node_self]

/-- Length of the node the reference-`Add` operator constructs; the single
formula covers all three dispatch branches. -/
theorem mkAddRef_spec (st : St) (a b : Nat) :
    StExt st (mkAddRef st a b).1 ∧ (mkAddRef st a b).2 < (mkAddRef st a b).1.nodes.length ∧
    (mkAddRef st a b).1.nlen (mkAddRef st a b).2 =
      (if st.nlen a = 1 then st.nlen b else st.nlen a) := by
  unfold mkAddRef
  split_ifs with h1 h2 h3
  · obtain ⟨e1, e2, e3⟩ := pushComp_spec st (.addScalar b a)
    exact ⟨e1, e2, by rw [e3]; rfl⟩
  · obtain ⟨e1, e2, e3⟩ := pushComp_spec st (.addScalar a b)
    exact ⟨e1, e2, by rw [e3]; rfl⟩
  · exact absurd (Or.inl h3) h1
  · obtain ⟨e1, e2, e3⟩ := pushComp_spec st (.addC a b)
    exact ⟨e1, e2, by rw [e3]; rfl⟩

/-- Length of the node the `Mul` operators construct. -/
theorem mkMul_spec (st : St) (a b : Nat) :
    StExt st (mkMul st a b).1 ∧ (mkMul st a b).2 < (mkMul st a b).1.nodes.length ∧
    (mkMul st a b).1.nlen (mkMul st a b).2 =
      (if st.nlen a = 1 then st.nlen b else st.nlen a) := by
  unfold mkMul
  split_ifs with h1 h2 h3
  · obtain ⟨e1, e2, e3⟩ := pushComp_spec st (.mulScalar b a)
    exact ⟨e1, e2, by rw [e3]; rfl⟩
  · obtain ⟨e1, e2, e3⟩ := pushComp_spec st (.mulScalar a b)
    exact ⟨e1, e2, by rw [e3]; rfl⟩
  · -- the exclusive-or is false and `a` is scalar, so `b` is scalar as well
    obtain ⟨e1, e2, e3⟩ := pushComp_spec st (.mulC a b)
    refine ⟨e1, e2, ?_⟩
    have hb : st.nlen b = 1 := by
      by_contra hb
      simp [h3, hb] at h1
    rw [e3]
    show st.nlen a = st.nlen b
    rw [h3, hb]
  · obtain ⟨e1, e2, e3⟩ := pushComp_spec st (.mulC a b)
    exact ⟨e1, e2, by rw [e3]; rfl⟩

theorem mkSum_spec (st : St) (a : Nat) :
    StExt st (mkSum st a).1 ∧ (mkSum st a).2 < (mkSum st a).1.nodes.length ∧
    (mkSum st a).1.nlen (mkSum st a).2 = 1 :=
  pushComp_spec st (.sumC a)

theorem mkExpand_spec (st : St) (a L : Nat) :
    StExt st (mkExpand st a L).1 ∧ (mkExpand st a L).2 < (mkExpand st a L).1.nodes.length ∧
    (mkExpand st a L).1.nlen (mkExpand st a L).2 = L :=
  pushComp_spec st (.expand a L)

theorem mkUnary_spec (st : St) (a : Nat) (op : DOp) :
    StExt st (mkUnary st a op).1 ∧ (mkUnary st a op).2 < (mkUnary st a op).1.nodes.length ∧
    (mkUnary st a op).1.nlen (mkUnary st a op).2 = st.nlen a :=
  pushComp_spec st (.unary a op)

theorem mkIndex_spec (st : St) (a : Nat) (idxs : List (Nat × Nat)) (L : Nat) :
    StExt st (mkIndex st a idxs L).1 ∧
    (mkIndex st a idxs L).2 < (mkIndex st a idxs L).1.nodes.length ∧
    (mkIndex st a idxs L).1.nlen (mkIndex st a idxs L).2 = L :=
  pushComp_spec st (.indexC a idxs L)

theorem alGet_mem {l : List (Nat × Nat)} {k v : Nat} (h : alGet l k = some v) : (k, v) ∈ l := by
  induction l with
  | nil => cases h
  | cons p rest ih =>
    unfold alGet at h
    by_cases hp : p.1 = k
    · rw [if_pos hp] at h
      injection h with h2
      have hpv : (k, v) = p := by
        cases p
        simp_all
      rw [hpv]
      exact List.mem_cons_self _ _
    · rw [if_neg hp] at h
      exact List.mem_cons_of_mem _ (ih h)

theorem alSet_mem {l : List (Nat × Nat)} {k v : Nat} {p : Nat × Nat}
    (h : p ∈ alSet l k v) : p = (k, v) ∨ p ∈ l := by
  induction l with
  | nil => simpa [alSet] using h
  | cons q rest ih =>
    unfold alSet at h
    by_cases hq : q.1 = k
    · rw [if_pos hq] at h
      rcases List.mem_cons.mp h with h2 | h2
      · exact Or.inl h2
      · exact Or.inr (List.mem_cons_of_mem _ h2)
    · rw [if_neg hq] at h
      rcases List.mem_cons.mp h with h2 | h2
      · exact Or.inr (h2 ▸ List.mem_cons_self _ _)
      · rcases ih h2 with h3 | h3
        · exact Or.inl h3
        · exact Or.inr (List.mem_cons_of_mem _ h3)


theorem stExt_lt {s t : St} (h : StExt s t) {i : Nat} (hi : i < s.nodes.length) :
    i < t.nodes.length := lt_of_lt_of_le hi h.1

/-- Per-source gradient shape: given a gradient node `g` of the node's own
length, every gradient contribution `derivatives` constructs has exactly the
length of the source it belongs to, and construction only appends nodes. -/
theorem compDerivatives_spec (st : St) (v g : Nat) (hv : v < st.nodes.length)
    (hw : wfNode st v = true) (hgv : g < st.nodes.length) (hg : st.nlen g = st.nlen v) :
    StExt st (compDerivatives st v g).1 ∧
    ∀ p ∈ ((st.node v).comp.sources.zip (compDerivatives st v g).2),
      p.1 < v ∧ p.2 < (compDerivatives st v g).1.nodes.length ∧
      (compDerivatives st v g).1.nlen p.2 = st.nlen p.1 := by
  unfold wfNode at hw
  cases hc : (st.node v).comp with
  | fromData dd =>
    simp only [compDerivatives, hc, Comp.sources]
    exact ⟨stExt_refl st, by simp⟩
  | addC p1 p2 =>
    rw [hc] at hw
    simp only [Bool.and_eq_true, decide_eq_true_eq, beq_iff_eq] at hw
    obtain ⟨⟨⟨hp1, hp2⟩, heq⟩, hL⟩ := hw
    simp only [compDerivatives, hc, Comp.sources]
    refine ⟨stExt_refl st, ?_⟩
    intro p hp
    simp only [List.zip_cons_cons, List.zip_nil_right, List.mem_cons,
      List.not_mem_nil, or_false] at hp
    rcases hp with rfl | rfl
    · exact ⟨hp1, hgv, by rw [hg]; exact hL⟩
    · refine ⟨hp2, hgv, ?_⟩
      rw [hg]
      show (st.node v).length = st.nlen p2
      rw [hL, heq]
  | addScalar ns sc =>
    rw [hc] at hw
    simp only [Bool.and_eq_true, decide_eq_true_eq, beq_iff_eq] at hw
    obtain ⟨⟨⟨hns, hsc⟩, hsc1⟩, hL⟩ := hw
    simp only [compDerivatives, hc, Comp.sources]
    obtain ⟨e1, e2, e3⟩ := mkSum_spec st g
    refine ⟨e1, ?_⟩
    intro p hp
    simp only [List.zip_cons_cons, List.zip_nil_right, List.mem_cons,
      List.not_mem_nil, or_false] at hp
    rcases hp with rfl | rfl
    · refine ⟨hns, stExt_lt e1 hgv, ?_⟩
      rw [stExt_nlen e1 g hgv, hg]
      exact hL
    · exact ⟨hsc, e2, by rw [e3, hsc1]⟩
  | mulC p1 p2 =>
    rw [hc] at hw
    simp only [Bool.and_eq_true, decide_eq_true_eq, beq_iff_eq] at hw
    obtain ⟨⟨⟨hp1, hp2⟩, heq⟩, hL⟩ := hw
    simp only [compDerivatives, hc, Comp.sources]
    obtain ⟨e1, e2, e3⟩ := mkMul_spec st p2 g
    obtain ⟨f1, f2, f3⟩ := mkMul_spec (mkMul st p2 g).1 p1 g
    have hnp1 : st.nlen p1 = st.nlen v := hL.symm
    have hnp2 : st.nlen p2 = st.nlen v := heq.symm.trans hnp1
    have hm1 : (mkMul st p2 g).1.nlen (mkMul st p2 g).2 = st.nlen v := by
      rw [e3]
      by_cases h1 : st.nlen p2 = 1
      · rw [if_pos h1, hg]
      · rw [if_neg h1, hnp2]
    have hm2 : (mkMul (mkMul st p2 g).1 p1 g).1.nlen (mkMul (mkMul st p2 g).1 p1 g).2 =
        st.nlen v := by
      rw [f3, stExt_nlen e1 p1 (lt_trans hp1 hv), stExt_nlen e1 g hgv]
      by_cases h1 : st.nlen p1 = 1
      · rw [if_pos h1, hg]
      · rw [if_neg h1, hnp1]
    refine ⟨stExt_trans e1 f1, ?_⟩
    intro p hp
    simp only [List.zip_cons_cons, List.zip_nil_right, List.mem_cons,
      List.not_mem_nil, or_false] at hp
    rcases hp with rfl | rfl
    · refine ⟨hp1, stExt_lt f1 e2, ?_⟩
      rw [stExt_nlen f1 _ e2, hm1, hnp1]
    · exact ⟨hp2, f2, by rw [hm2, hnp2]⟩
  | mulScalar ns sc =>
    rw [hc] at hw
    simp only [Bool.and_eq_true, decide_eq_true_eq, beq_iff_eq] at hw
    obtain ⟨⟨⟨hns, hsc⟩, hsc1⟩, hL⟩ := hw
    simp only [compDerivatives, hc, Comp.sources]
    obtain ⟨e1, e2, e3⟩ := mkMul_spec st g sc
    obtain ⟨f1, f2, f3⟩ := mkMul_spec (mkMul st g sc).1 g ns
    obtain ⟨s1, s2, s3⟩ := mkSum_spec (mkMul (mkMul st g sc).1 g ns).1
      (mkMul (mkMul st g sc).1 g ns).2
    have hnns : st.nlen ns = st.nlen v := hL.symm
    have hm1 : (mkMul st g sc).1.nlen (mkMul st g sc).2 = st.nlen ns := by
      rw [e3]
      by_cases h1 : st.nlen g = 1
      · rw [if_pos h1, hsc1, ← h1, hg, hnns]
      · rw [if_neg h1, hg, hnns]
    refine ⟨stExt_trans e1 (stExt_trans f1 s1), ?_⟩
    intro p hp
    simp only [List.zip_cons_cons, List.zip_nil_right, List.mem_cons,
      List.not_mem_nil, or_false] at hp
    rcases hp with rfl | rfl
    · refine ⟨hns, stExt_lt s1 (stExt_lt f1 e2), ?_⟩
      rw [stExt_nlen s1 _ (stExt_lt f1 e2), stExt_nlen f1 _ e2, hm1]
    · exact ⟨hsc, s2, by rw [s3, hsc1]⟩
  | unary s0 op =>
    rw [hc] at hw
    simp only [Bool.and_eq_true, decide_eq_true_eq, beq_iff_eq] at hw
    obtain ⟨hs0, hL⟩ := hw
    simp only [compDerivatives, hc, Comp.sources]
    obtain ⟨e1, e2, e3⟩ := mkUnary_spec st s0 op.derivative
    obtain ⟨f1, f2, f3⟩ := mkMul_spec (mkUnary st s0 op.derivative).1
      (mkUnary st s0 op.derivative).2 g
    have hns0 : st.nlen s0 = st.nlen v := hL.symm
    refine ⟨stExt_trans e1 f1, ?_⟩
    intro p hp
    simp only [List.zip_cons_cons, List.zip_nil_right, List.mem_cons,
      List.not_mem_nil, or_false] at hp
    rcases hp with rfl
    refine ⟨hs0, f2, ?_⟩
    rw [f3, e3, stExt_nlen e1 g hgv]
    by_cases h1 : st.nlen s0 = 1
    · rw [if_pos h1, hg, ← hns0, h1]
    · rw [if_neg h1]
  | indexC s0 idxs L =>
    rw [hc] at hw
    simp only [Bool.and_eq_true, decide_eq_true_eq, beq_iff_eq, List.all_eq_true] at hw
    obtain ⟨⟨hs0, hL⟩, hidx⟩ := hw
    simp only [compDerivatives, hc, Comp.sources]
    obtain ⟨e1, e2, e3⟩ := mkIndex_spec st g (idxs.map (fun p => (p.2, p.1))) (st.nlen s0)
    refine ⟨e1, ?_⟩
    intro p hp
    simp only [List.zip_cons_cons, List.zip_nil_right, List.mem_cons,
      List.not_mem_nil, or_false] at hp
    rcases hp with rfl
    exact ⟨hs0, e2, by rw [e3]⟩
  | sumC s0 =>
    rw [hc] at hw
    simp only [Bool.and_eq_true, decide_eq_true_eq, beq_iff_eq] at hw
    obtain ⟨hs0, hL⟩ := hw
    simp only [compDerivatives, hc, Comp.sources]
    obtain ⟨e1, e2, e3⟩ := mkExpand_spec st g (st.nlen s0)
    refine ⟨e1, ?_⟩
    intro p hp
    simp only [List.zip_cons_cons, List.zip_nil_right, List.mem_cons,
      List.not_mem_nil, or_false] at hp
    rcases hp with rfl
    exact ⟨hs0, e2, by rw [e3]⟩
  | expand s0 L =>
    rw [hc] at hw
    simp only [Bool.and_eq_true, decide_eq_true_eq, beq_iff_eq] at hw
    obtain ⟨⟨hs0, hs01⟩, hL⟩ := hw
    simp only [compDerivatives, hc, Comp.sources]
    obtain ⟨e1, e2, e3⟩ := mkSum_spec st g
    refine ⟨e1, ?_⟩
    intro p hp
    simp only [List.zip_cons_cons, List.zip_nil_right, List.mem_cons,
      List.not_mem_nil, or_false] at hp
    rcases hp with rfl
    exact ⟨hs0, e2, by rw [e3, hs01]⟩

/-- Folding the gradient merges preserves the shape invariant: keys stay
original node ids, values stay valid ids whose lengths match their keys. -/
theorem mergeAll_spec (base : St) (pairs : List (Nat × Nat)) (st : St)
    (grads : List (Nat × Nat)) (hbs : base.nodes.length ≤ st.nodes.length)
    (hkeys : ∀ p ∈ grads, p.1 < base.nodes.length ∧ p.2 < st.nodes.length ∧
      st.nlen p.2 = st.nlen p.1)
    (hpairs : ∀ p ∈ pairs, p.1 < base.nodes.length ∧ p.2 < st.nodes.length ∧
      st.nlen p.2 = st.nlen p.1) :
    StExt st (mergeAll st grads pairs).1 ∧
    ∀ p ∈ (mergeAll st grads pairs).2, p.1 < base.nodes.length ∧
      p.2 < (mergeAll st grads pairs).1.nodes.length ∧
      (mergeAll st grads pairs).1.nlen p.2 = (mergeAll st grads pairs).1.nlen p.1 := by
  induction pairs generalizing st grads with
  | nil =>
    exact ⟨stExt_refl st, fun p hp => hkeys p hp⟩
  | cons q rest ih =>
    have hq := hpairs q (List.mem_cons_self _ _)
    simp only [mergeAll]
    rcases hget : alGet grads q.1 with _ | old
    · -- first contribution: direct insert, the world is unchanged
      have hstep : mergeGrads st grads q.1 q.2 = (st, alSet grads q.1 q.2) := by
        unfold mergeGrads
        rw [hget]
      rw [hstep]
      refine ih st (alSet grads q.1 q.2) hbs ?_ ?_
      · intro p hp
        rcases alSet_mem hp with rfl | hp2
        · exact hq
        · exact hkeys p hp2
      · exact fun p hp => hpairs p (List.mem_cons_of_mem _ hp)
    · -- later contribution: build the fresh addition node over (old, new)
      have hstep : mergeGrads st grads q.1 q.2 =
          ((mkAddRef st old q.2).1, alSet grads q.1 (mkAddRef st old q.2).2) := by
        unfold mergeGrads
        rw [hget]
      rw [hstep]
      obtain ⟨hok1, hok2, hok3⟩ := hkeys (q.1, old) (alGet_mem hget)
      obtain ⟨e1, e2, e3⟩ := mkAddRef_spec st old q.2
      have hnew : (mkAddRef st old q.2).1.nlen (mkAddRef st old q.2).2 =
          st.nlen q.1 := by
        rw [e3]
        by_cases h1 : st.nlen old = 1
        · rw [if_pos h1, hq.2.2, ← hok3, h1]
        · rw [if_neg h1]
          exact hok3
      have hres := ih (mkAddRef st old q.2).1 (alSet grads q.1 (mkAddRef st old q.2).2)
        (le_trans hbs e1.1) ?_ ?_
      · exact ⟨stExt_trans e1 hres.1, hres.2⟩
      · intro p hp
        rcases alSet_mem hp with rfl | hp2
        · refine ⟨hq.1, e2, ?_⟩
          rw [hnew, stExt_nlen e1 q.1 (lt_of_lt_of_le hq.1 hbs)]
        · obtain ⟨h1, h2, h3⟩ := hkeys p hp2
          refine ⟨h1, stExt_lt e1 h2, ?_⟩
          rw [stExt_nlen e1 p.2 h2, stExt_nlen e1 p.1 (lt_of_lt_of_le h1 hbs), h3]
      · intro p hp
        obtain ⟨h1, h2, h3⟩ := hpairs p (List.mem_cons_of_mem _ hp)
        refine ⟨h1, stExt_lt e1 h2, ?_⟩
        rw [stExt_nlen e1 p.2 h2, stExt_nlen e1 p.1 (lt_of_lt_of_le h1 hbs), h3]

/-- The backward-pass main loop preserves the gradient-shape invariant. -/
theorem deriveLoop_spec (base : St) (order : List Nat) (st : St)
    (grads : List (Nat × Nat)) (hwf : Wf base) (hext : StExt base st)
    (hkeys : ∀ p ∈ grads, p.1 < base.nodes.length ∧ p.2 < st.nodes.length ∧
      st.nlen p.2 = st.nlen p.1) :
    StExt st (deriveLoop st grads order).1 ∧
    ∀ p ∈ (deriveLoop st grads order).2, p.1 < base.nodes.length ∧
      p.2 < (deriveLoop st grads order).1.nodes.length ∧
      (deriveLoop st grads order).1.nlen p.2 = (deriveLoop st grads order).1.nlen p.1 := by
  induction order generalizing st grads with
  | nil => exact ⟨stExt_refl st, fun p hp => hkeys p hp⟩
  | cons v rest ih =>
    simp only [deriveLoop]
    rcases hget : alGet grads v with _ | g
    · exact ih st grads hext hkeys
    · obtain ⟨hv1, hg2, hg3⟩ := hkeys _ (alGet_mem hget)
      have hwv : wfNode st v = true := wfNode_of_ext hext hv1 (hwf v hv1)
      have hvlt : v < st.nodes.length := lt_of_lt_of_le hv1 hext.1
      obtain ⟨d1, d2⟩ := compDerivatives_spec st v g hvlt hwv hg2 hg3
      have hkeys2 : ∀ p ∈ grads, p.1 < base.nodes.length ∧
          p.2 < (compDerivatives st v g).1.nodes.length ∧
          (compDerivatives st v g).1.nlen p.2 = (compDerivatives st v g).1.nlen p.1 := by
        intro p hp
        obtain ⟨h1, h2, h3⟩ := hkeys p hp
        refine ⟨h1, stExt_lt d1 h2, ?_⟩
        rw [stExt_nlen d1 p.2 h2,
          stExt_nlen d1 p.1 (lt_of_lt_of_le h1 hext.1), h3]
      have hpairs : ∀ p ∈ (((st.node v).comp.sources).zip (compDerivatives st v g).2),
          p.1 < base.nodes.length ∧
          p.2 < (compDerivatives st v g).1.nodes.length ∧
          (compDerivatives st v g).1.nlen p.2 = (compDerivatives st v g).1.nlen p.1 := by
        intro p hp
        obtain ⟨h1, h2, h3⟩ := d2 p hp
        have hp1 : p.1 < base.nodes.length := lt_trans h1 hv1
        refine ⟨hp1, h2, ?_⟩
        rw [h3, stExt_nlen d1 p.1 (lt_of_lt_of_le hp1 hext.1)]
      obtain ⟨m1, m2⟩ := mergeAll_spec base (((st.node v).comp.sources).zip
        (compDerivatives st v g).2) (compDerivatives st v g).1 grads
        (le_trans hext.1 d1.1) hkeys2 hpairs
      obtain ⟨l1, l2⟩ := ih (mergeAll (compDerivatives st v g).1 grads
          (((st.node v).comp.sources).zip (compDerivatives st v g).2)).1
        (mergeAll (compDerivatives st v g).1 grads
          (((st.node v).comp.sources).zip (compDerivatives st v g).2)).2
        (stExt_trans hext (stExt_trans d1 m1)) m2
      exact ⟨stExt_trans d1 (stExt_trans m1 l1), l2⟩

theorem wf_mkFromData (st : St) (d : Buf) (hwf : Wf st) : Wf (mkFromData st d).1 := by
  intro i hi
  have hlen : (mkFromData st d).1.nodes.length = st.nodes.length + 1 :=
    push_nodes_length st _ _
  rw [hlen] at hi
  rcases Nat.lt_or_ge i st.nodes.length with h1 | h1
  · exact wfNode_of_ext (stExt_pushComp st _) h1 (hwf i h1)
  · have hieq : i = st.nodes.length := by omega
    subst hieq
    unfold wfNode
    have hnode : (mkFromData st d).1.node st.nodes.length =
        ⟨.fromData d, compLen st (.fromData d)⟩ := push_node_self st _ _
    rw [hnode]
    simp [compLen]

/-- C10: for every well-formed graph and every successful `derive()` run,
each entry (node x, gradient g) of the returned mapping satisfies
`g.len() == x.len()` — every computation variant's `derivatives` returns one
gradient per source of exactly that source's length, and merging two
contributions preserves the common length. -/
theorem c10_gradient_length_invariant (st : St) (root : Nat) (st2 : St)
    (grads : List (Nat × Nat)) (hwf : Wf st)
    (h : deriveMap st root = .ok (st2, grads)) :
    ∀ p ∈ grads, st2.nlen p.2 = st2.nlen p.1 := by
  unfold deriveMap at h
  by_cases hroot : st.nlen root = 1
  · rw [if_pos hroot] at h
    injection h with h2
    have hrootlt : root < st.nodes.length :=
      lt_length_of_nlen_ne_zero st root (by omega)
    have hwf1 : Wf (mkFromData st [1]).1 := wf_mkFromData st [1] hwf
    obtain ⟨e1, e2, e3⟩ := pushComp_spec st (.fromData [1])
    have hkeys : ∀ p ∈ [(root, (mkFromData st [1]).2)],
        p.1 < (mkFromData st [1]).1.nodes.length ∧
        p.2 < (mkFromData st [1]).1.nodes.length ∧
        (mkFromData st [1]).1.nlen p.2 = (mkFromData st [1]).1.nlen p.1 := by
      intro p hp
      simp only [List.mem_singleton] at hp
      subst hp
      refine ⟨stExt_lt e1 hrootlt, e2, ?_⟩
      show (mkFromData st [1]).1.nlen (mkFromData st [1]).2 = (mkFromData st [1]).1.nlen root
      have e3m : (mkFromData st [1]).1.nlen (mkFromData st [1]).2 = 1 := e3
      have er : (mkFromData st [1]).1.nlen root = 1 := by
        have hs := stExt_nlen e1 root hrootlt
        rw [hroot] at hs
        exact hs
      rw [e3m, er]
    obtain ⟨l1, l2⟩ := deriveLoop_spec (mkFromData st [1]).1
      (topoFull (mkFromData st [1]).1 root) (mkFromData st [1]).1
      [(root, (mkFromData st [1]).2)] hwf1 (stExt_refl _) hkeys
    rw [h2] at l2
    exact fun p hp => (l2 p hp).2.2
  · rw [if_neg hroot] at h
    cases h

/-- Witness for `c10_gradient_length_invariant`: the squaring graph is well
formed and its gradient mapping satisfies the length invariant. -/
theorem c10_gradient_length_invariant_witness :
    Wf stMulSq ∧
    ∀ p ∈ deriveGradsOf stMulSq 1,
      (deriveStOf stMulSq 1).nlen p.2 = (deriveStOf stMulSq 1).nlen p.1 := by
  refine ⟨by decide, ?_⟩
  intro p hp
  exact c10_gradient_length_invariant stMulSq 1 (deriveStOf stMulSq 1)
    (deriveGradsOf stMulSq 1) (by decide) (by rfl) p hp
